import Mathlib

/-!
Shallow embedding of src/tools/mqtt_broker.py: a minimal single-connection
MQTT-style fixture broker.  A byte stream is modelled as a list of natural
numbers (every element is a byte value 0-255 on real inputs); the asyncio
StreamReader primitive readexactly, which returns exactly n bytes or raises
IncompleteReadError, becomes an Option-returning split of the list.  All
bytes written by the broker are collected into an output list in order.
-/

/-- UTF-8 bytes of a string, as natural numbers. -/
def utf8Bytes (s : String) : List Nat :=
  s.toUTF8.data.toList.map (fun b => b.toNat)

/-- Constant TEST_TOPIC of mqtt_broker.py. -/
def TEST_TOPIC : String := "robotick/integration/topic"

/-- Constant BROKER_MESSAGE of mqtt_broker.py. -/
def BROKER_MESSAGE : String := "welcome from broker"

/-- Embeds encode_string of mqtt_broker.py: 2-byte big-endian length prefix of
the UTF-8 data, then the data.  The Python constructor bytes([a, b]) raises
ValueError unless both list entries are in 0..255; the entry length and 0xFF is
always in range, so the call fails exactly when length shifted right by 8
exceeds 255, modelled by returning none. -/
def encode_string (text : String) : Option (List Nat) :=
  let data := utf8Bytes text
  let length := data.length
  if length >>> 8 ≤ 255 then
    some ([length >>> 8, length &&& 0xFF] ++ data)
  else
    none

/-- Embeds encode_remaining_length of mqtt_broker.py, the MQTT base-128 varint
encoder: emit the low 7 bits, set the continuation bit 0x80 when the
right-shifted value is still positive, and loop on the shifted value until it
reaches 0. -/
def encode_remaining_length (value : Nat) : List Nat :=
  if h : 0 < value >>> 7 then
    ((value &&& 0x7F) ||| 0x80) :: encode_remaining_length (value >>> 7)
  else
    [value &&& 0x7F]
termination_by value
decreasing_by
  rw [Nat.shiftRight_eq_div_pow] at h ⊢
  exact Nat.div_lt_self (by omega) (by norm_num)

/-- Fuel-indexed run of the encode_remaining_length loop over the integers, as
Python executes it on an arbitrary int: value and 0x7F on an unbounded
two's-complement integer is the Euclidean remainder mod 128, and the in-place
arithmetic shift right by 7 is floor division by 128 (for a positive divisor
Int.ediv and Int.emod agree with Python's floor division and modulo).  The
byte's low 7 bits are below 128, so setting the continuation bit adds 128.
A none result means the loop has not terminated within fuel iterations. -/
def encodeRLFuel : Nat → Int → Option (List Int)
  | 0, _ => none
  | fuel + 1, value =>
    let byte := value % 128
    let shifted := value / 128
    let byte2 := if 0 < shifted then byte + 128 else byte
    if shifted = 0 then some [byte2]
    else (encodeRLFuel fuel shifted).map (fun l => byte2 :: l)

/-- Casts a list of byte values to integers, for comparing the Nat-level
encoder output with the integer-level loop runs. -/
def natBytesToInt (l : List Nat) : List Int :=
  l.map Int.ofNat

/-- Embeds the asyncio StreamReader.readexactly primitive on a closed stream
modelled as a list: the first n bytes and the remainder, or none
(IncompleteReadError) when fewer than n bytes remain. -/
def readexactly (n : Nat) (s : List Nat) : Option (List Nat × List Nat) :=
  if n ≤ s.length then some (s.take n, s.drop n) else none

/-- Embeds the varint decode loop of read_packet in mqtt_broker.py: read one
byte at a time (so an empty stream is an IncompleteReadError, modelled as
none), add its low 7 bits times the multiplier to the accumulator, stop when
the continuation bit is clear, otherwise multiply the multiplier by 128 and
continue.  Returns the decoded value and the unconsumed rest of the stream. -/
def decodeRL : List Nat → Nat → Nat → Option (Nat × List Nat)
  | [], _, _ => none
  | b :: rest, multiplier, remaining =>
    if b &&& 0x80 = 0 then some (remaining + (b &&& 0x7F) * multiplier, rest)
    else decodeRL rest (multiplier * 128) (remaining + (b &&& 0x7F) * multiplier)

/-- Embeds read_packet of mqtt_broker.py: one header byte, then the varint
remaining length, then exactly that many payload bytes.  Returns the header
byte, the payload and the rest of the stream, or none when the stream ends
first (IncompleteReadError). -/
def read_packet (s : List Nat) : Option (Nat × List Nat × List Nat) :=
  match readexactly 1 s with
  | none => none
  | some (first, s1) =>
    match decodeRL s1 1 0 with
    | none => none
    | some (remaining, s2) =>
      match readexactly remaining s2 with
      | none => none
      | some (payload, s3) => some (first.headD 0, payload, s3)

/-- Outcome classification of one run of handle_client.  completed: the final
read of the client publish succeeded and the function fell off the try block;
absorbed: an asyncio.IncompleteReadError or RuntimeError was raised and
swallowed by the except clause; uncaught: an exception outside that tuple
(IndexError from payload[0] or payload[1], or ValueError from the bytes
constructor) propagates out of handle_client. -/
inductive ConnResult
  | completed
  | absorbed
  | uncaught
deriving DecidableEq

/-- Result of handle_client: the bytes written to the stream in order, the
outcome, and whether the finally block closed the writer (it runs on every
path, so this field is always true). -/
structure ConnOutcome where
  written : List Nat
  result : ConnResult
  closed : Bool
deriving DecidableEq

/-- Embeds handle_client of mqtt_broker.py: expect CONNECT, write CONNACK,
expect SUBSCRIBE, write SUBACK echoing the packet id, write the canned PUBLISH
frame, then read one client frame.  The except clause catches only
IncompleteReadError and RuntimeError; extracting the packet id from a
SUBSCRIBE payload shorter than 2 bytes raises IndexError, which is not in the
tuple and escapes. -/
def handle_client (input : List Nat) : ConnOutcome :=
  match read_packet input with
  | none => ⟨[], .absorbed, true⟩
  | some (header, _, s1) =>
    if header &&& 0xF0 ≠ 0x10 then ⟨[], .absorbed, true⟩
    else
      let connack := [0x20, 0x02, 0x00, 0x00]
      match read_packet s1 with
      | none => ⟨connack, .absorbed, true⟩
      | some (header2, payload, s2) =>
        if header2 &&& 0xF0 ≠ 0x80 then ⟨connack, .absorbed, true⟩
        else if payload.length < 2 then ⟨connack, .uncaught, true⟩
        else
          let packet_id := ((payload.getD 0 0) <<< 8) ||| payload.getD 1 0
          let suback := [0x90, 0x03, packet_id >>> 8, packet_id &&& 0xFF, 0x00]
          match encode_string TEST_TOPIC with
          | none => ⟨connack ++ suback, .uncaught, true⟩
          | some topic_bytes =>
            let payload_bytes := utf8Bytes BROKER_MESSAGE
            let remaining := topic_bytes.length + payload_bytes.length
            let publish :=
              0x30 :: (encode_remaining_length remaining ++ topic_bytes ++ payload_bytes)
            let written := connack ++ suback ++ publish
            match read_packet s2 with
            | none => ⟨written, .absorbed, true⟩
            | some _ => ⟨written, .completed, true⟩

/-- Validity of a decimal digit run as accepted by the CPython int constructor
after sign and whitespace handling: nonempty, only digits and underscores,
first and last characters are digits, and no two consecutive underscores
(together these allow an underscore only between two digits). -/
def digitRunValid (cs : List Char) : Bool :=
  !cs.isEmpty &&
  cs.all (fun c => c.isDigit || c == '_') &&
  (match cs.head? with | some c => c.isDigit | none => false) &&
  (match cs.getLast? with | some c => c.isDigit | none => false) &&
  (cs.zip cs.tail).all (fun p => !(p.1 == '_' && p.2 == '_'))

/-- Numeric value of a valid digit run, ignoring underscores. -/
def digitsVal (cs : List Char) : Nat :=
  (cs.filter (fun c => c != '_')).foldl (fun a c => a * 10 + (c.toNat - 48)) 0

/-- Models the CPython builtin int applied to a string (the expression
int(sys.argv[1]) in main): strip surrounding whitespace, allow one optional
sign, then a decimal digit run with underscores only between digits; none
models the ValueError raised on any other input. -/
def pythonInt (s : String) : Option Int :=
  let t := ((s.toList.dropWhile Char.isWhitespace).reverse.dropWhile
    Char.isWhitespace).reverse
  match t with
  | '+' :: ds => if digitRunValid ds then some (Int.ofNat (digitsVal ds)) else none
  | '-' :: ds => if digitRunValid ds then some (-(Int.ofNat (digitsVal ds))) else none
  | ds => if digitRunValid ds then some (Int.ofNat (digitsVal ds)) else none

/-- Outcome of the main entry point of mqtt_broker.py.  exitUsage: the usage
message is printed to stderr and sys.exit(1) runs.  exitTraceback: int() raised
an uncaught ValueError, so the interpreter prints a traceback to stderr and
exits with status 1.  runServer: the listener is started on the parsed port. -/
inductive MainOutcome
  | exitUsage
  | exitTraceback
  | runServer (port : Int)
deriving DecidableEq

namespace MqttBroker

/-- Embeds main of mqtt_broker.py over the argument vector (argv includes the
script name, as in Python): any argument count other than 2 prints the usage
message and exits 1; otherwise the port argument is parsed by int(), whose
ValueError is not caught; otherwise the listener runs. -/
def main (argv : List String) : MainOutcome :=
  if argv.length ≠ 2 then .exitUsage
  else
    match pythonInt (argv.getD 1 "") with
    | none => .exitTraceback
    | some p => .runServer p

end MqttBroker

/-- Process exit status produced by each main outcome: the explicit sys.exit(1),
or status 1 set by the interpreter on an uncaught exception; none when the
listener runs (it only stops on external interruption). -/
def exitCode : MainOutcome → Option Nat
  | .exitUsage => some 1
  | .exitTraceback => some 1
  | .runServer _ => none

/-!
Helper lemmas about the bit operations used by the codec.  Bytes produced by
the encoder have value below 256; masking with 0x7F is reduction mod 128 and
shifting right by 7 is division by 128.
-/

theorem and127_eq_mod (v : Nat) : v &&& 127 = v % 128 := by
  have h := Nat.and_pow_two_sub_one_eq_mod v 7
  norm_num at h
  exact h

theorem shiftRight7_eq_div (v : Nat) : v >>> 7 = v / 128 := by
  rw [Nat.shiftRight_eq_div_pow]

theorem and127_idem (v : Nat) : (v &&& 127) &&& 127 = v &&& 127 := by
  rw [Nat.land_assoc, show (127 : Nat) &&& 127 = 127 from by decide]

theorem lastByte_and128 (v : Nat) : (v &&& 127) &&& 128 = 0 := by
  rw [Nat.land_assoc, show (127 : Nat) &&& 128 = 0 from by decide]
  simp

theorem contByte_and127 (v : Nat) : ((v &&& 127) ||| 128) &&& 127 = v &&& 127 := by
  rw [Nat.and_distrib_right, Nat.land_assoc, show (127 : Nat) &&& 127 = 127 from by decide,
    show (128 : Nat) &&& 127 = 0 from by decide]
  simp

theorem contByte_and128 (v : Nat) : ((v &&& 127) ||| 128) &&& 128 = 128 := by
  rw [Nat.and_distrib_right, lastByte_and128, show (128 : Nat) &&& 128 = 128 from by decide]
  simp

theorem encode_remaining_length_ne_nil (v : Nat) : encode_remaining_length v ≠ [] := by
  rw [encode_remaining_length]
  split <;> simp

/-- Round trip of the varint codec, generalized over the decoder state: running
the decode loop of read_packet on the encoder output followed by any further
stream bytes adds the encoded value times the current multiplier to the
accumulator and consumes exactly the encoder output. -/
theorem decodeRL_encode (v : Nat) : ∀ (multiplier remaining : Nat) (rest : List Nat),
    decodeRL (encode_remaining_length v ++ rest) multiplier remaining
      = some (remaining + v * multiplier, rest) := by
  induction v using Nat.strong_induction_on with
  | _ v ih =>
    intro multiplier remaining rest
    rw [encode_remaining_length]
    by_cases h : 0 < v >>> 7
    · rw [dif_pos h, List.cons_append]
      have hne : ((v &&& 127) ||| 128) &&& 128 ≠ 0 := by
        rw [contByte_and128]
        norm_num
      rw [decodeRL, if_neg hne, contByte_and127]
      have hlt : v >>> 7 < v := by
        rw [shiftRight7_eq_div] at h ⊢
        exact Nat.div_lt_self (by omega) (by norm_num)
      rw [ih (v >>> 7) hlt, and127_eq_mod, shiftRight7_eq_div]
      have hsplit : v % 128 + v / 128 * 128 = v := by omega
      have hacc : remaining + v % 128 * multiplier + v / 128 * (multiplier * 128)
          = remaining + v * multiplier := by
        calc remaining + v % 128 * multiplier + v / 128 * (multiplier * 128)
            = remaining + (v % 128 + v / 128 * 128) * multiplier := by ring
          _ = remaining + v * multiplier := by rw [hsplit]
      rw [hacc]
    · rw [dif_neg h, List.singleton_append, decodeRL, if_pos (lastByte_and128 v)]
      have hv : v &&& 127 = v := by
        rw [shiftRight7_eq_div] at h
        rw [and127_eq_mod]
        omega
      rw [and127_idem, hv]

theorem encode_len_pos (v : Nat) : 0 < (encode_remaining_length v).length :=
  List.length_pos.mpr (encode_remaining_length_ne_nil v)

/-- Upper bound matching the byte count: an encoded value is below 2 to the
7 times the number of emitted bytes. -/
theorem encode_len_upper (v : Nat) : v < 2 ^ (7 * (encode_remaining_length v).length) := by
  induction v using Nat.strong_induction_on with
  | _ v ih =>
    rw [encode_remaining_length]
    by_cases h : 0 < v >>> 7
    · rw [dif_pos h]
      simp only [List.length_cons]
      have hlt : v >>> 7 < v := by
        rw [shiftRight7_eq_div] at h ⊢
        exact Nat.div_lt_self (by omega) (by norm_num)
      have ihv := ih (v >>> 7) hlt
      generalize hL : (encode_remaining_length (v >>> 7)).length = L at ihv ⊢
      rw [shiftRight7_eq_div] at ihv
      have hpow : 2 ^ (7 * (L + 1)) = 2 ^ (7 * L) * 128 := by
        rw [Nat.mul_add, Nat.pow_add]
      omega
    · rw [dif_neg h]
      rw [shiftRight7_eq_div] at h
      have hpow : 2 ^ (7 * ([v &&& 127].length)) = 128 := by norm_num
      omega

/-- Lower bound matching the byte count: when at least two bytes are emitted,
the value reaches 2 to the 7 times one less than the byte count. -/
theorem encode_len_lower (v : Nat) : 2 ≤ (encode_remaining_length v).length →
    2 ^ (7 * ((encode_remaining_length v).length - 1)) ≤ v := by
  induction v using Nat.strong_induction_on with
  | _ v ih =>
    rw [encode_remaining_length]
    by_cases h : 0 < v >>> 7
    · rw [dif_pos h]
      intro _
      simp only [List.length_cons, Nat.add_sub_cancel]
      have hlt : v >>> 7 < v := by
        rw [shiftRight7_eq_div] at h ⊢
        exact Nat.div_lt_self (by omega) (by norm_num)
      by_cases h2 : 2 ≤ (encode_remaining_length (v >>> 7)).length
      · have ihv := ih (v >>> 7) hlt h2
        generalize hL : (encode_remaining_length (v >>> 7)).length = L at ihv ⊢
        rw [shiftRight7_eq_div] at ihv
        have hL2 : 2 ≤ L := hL ▸ h2
        have hpow : 2 ^ (7 * L) = 2 ^ (7 * (L - 1)) * 128 := by
          have h7 : 7 * L = 7 * (L - 1) + 7 := by omega
          rw [h7, Nat.pow_add]
        omega
      · have h1 := encode_len_pos (v >>> 7)
        have hlen : (encode_remaining_length (v >>> 7)).length = 1 := by omega
        rw [hlen]
        rw [shiftRight7_eq_div] at h
        norm_num
        omega
    · rw [dif_neg h]
      intro habs
      simp at habs

/-- C1: for every n in [0, 2097151], the decode loop of read_packet applied to
the bytes of encode_remaining_length n (with initial multiplier 1 and
accumulator 0) returns n and consumes the whole encoding, and the encoding has
exactly ceil((bitlength(n) or 1) / 7) bytes, where bitlength is Nat.size and
the or-1 makes the count 1 for n = 0. -/
theorem varint_roundtrip_and_length (n : Nat) (_h : n ≤ 2097151) :
    decodeRL (encode_remaining_length n) 1 0 = some (n, []) ∧
    (encode_remaining_length n).length = (max (Nat.size n) 1 + 6) / 7 := by
  constructor
  · have hrt := decodeRL_encode n 1 0 []
    simpa using hrt
  · have hpos := encode_len_pos n
    have hup := encode_len_upper n
    have hsize_le : Nat.size n ≤ 7 * (encode_remaining_length n).length :=
      Nat.size_le.mpr hup
    by_cases h2 : 2 ≤ (encode_remaining_length n).length
    · have hlow := encode_len_lower n h2
      have hsize_gt : 7 * ((encode_remaining_length n).length - 1) < Nat.size n :=
        Nat.lt_size.mpr hlow
      rw [Nat.max_eq_left (show 1 ≤ Nat.size n by omega)]
      omega
    · have hL1 : (encode_remaining_length n).length = 1 := by omega
      rw [hL1] at hsize_le ⊢
      rcases Nat.le_total (Nat.size n) 1 with hc | hc
      · rw [Nat.max_eq_right hc]
      · rw [Nat.max_eq_left hc]
        omega

/-- Witness for C1 at n = 300: the hypothesis holds and the round trip and
length statements follow from the theorem. -/
theorem varint_roundtrip_and_length_witness :
    (300 : Nat) ≤ 2097151 ∧
    (decodeRL (encode_remaining_length 300) 1 0 = some (300, []) ∧
     (encode_remaining_length 300).length = (max (Nat.size 300) 1 + 6) / 7) :=
  ⟨by norm_num, varint_roundtrip_and_length 300 (by norm_num)⟩

theorem or_shiftRight (a b : Nat) : ∀ k, (a ||| b) >>> k = (a >>> k) ||| (b >>> k) := by
  intro k
  induction k with
  | zero => simp [Nat.shiftRight_zero]
  | succ k ih =>
    rw [Nat.shiftRight_succ, Nat.shiftRight_succ, Nat.shiftRight_succ, ih, Nat.or_div_two]

theorem or128_eq_add (a : Nat) (h : a < 128) : a ||| 128 = a + 128 := by
  have hmod : (a ||| 128) % 128 = a := by
    rw [← and127_eq_mod, Nat.and_distrib_right, show (128 : Nat) &&& 127 = 0 from by decide,
      Nat.or_zero, and127_eq_mod, Nat.mod_eq_of_lt h]
  have hdiv : (a ||| 128) / 128 = 1 := by
    rw [← shiftRight7_eq_div, or_shiftRight a 128 7, shiftRight7_eq_div, shiftRight7_eq_div,
      Nat.div_eq_of_lt h]
    decide
  omega

/-- Every byte of the encoder output except the last carries the continuation
bit 0x80. -/
theorem encode_cont_bits (v : Nat) :
    (encode_remaining_length v).dropLast.all (fun b => b &&& 0x80 == 0x80) = true := by
  induction v using Nat.strong_induction_on with
  | _ v ih =>
    rw [encode_remaining_length]
    by_cases h : 0 < v >>> 7
    · rw [dif_pos h]
      have hlt : v >>> 7 < v := by
        rw [shiftRight7_eq_div] at h ⊢
        exact Nat.div_lt_self (by omega) (by norm_num)
      rw [List.dropLast_cons_of_ne_nil (encode_remaining_length_ne_nil (v >>> 7)),
        List.all_cons, contByte_and128]
      simp [ih (v >>> 7) hlt]
    · rw [dif_neg h]
      simp

/-- The last byte of the encoder output has a clear continuation bit, stated
with an arbitrary default so the induction goes through. -/
theorem encode_last_clear (v : Nat) :
    ∀ d : Nat, ((encode_remaining_length v).getLastD d) &&& 0x80 = 0 := by
  induction v using Nat.strong_induction_on with
  | _ v ih =>
    intro d
    rw [encode_remaining_length]
    by_cases h : 0 < v >>> 7
    · rw [dif_pos h]
      have hlt : v >>> 7 < v := by
        rw [shiftRight7_eq_div] at h ⊢
        exact Nat.div_lt_self (by omega) (by norm_num)
      rw [List.getLastD_cons]
      exact ih (v >>> 7) hlt _
    · rw [dif_neg h]
      exact lastByte_and128 v

/-- C7: the varint encoder hits the documented boundary byte sequences, and in
general the continuation bit 0x80 is set on every byte except the last and
clear on the last. -/
theorem varint_boundary_values :
    encode_remaining_length 0 = [0x00] ∧
    encode_remaining_length 127 = [0x7F] ∧
    encode_remaining_length 128 = [0x80, 0x01] ∧
    encode_remaining_length 16384 = [0x80, 0x80, 0x01] ∧
    ∀ n : Nat, (encode_remaining_length n).dropLast.all (fun b => b &&& 0x80 == 0x80) = true ∧
      ((encode_remaining_length n).getLastD 0) &&& 0x80 = 0 := by
  refine ⟨?_, ?_, ?_, ?_, fun n => ⟨encode_cont_bits n, encode_last_clear n 0⟩⟩
  all_goals simp [encode_remaining_length]
  all_goals decide

/-- One-step equation of the encoder when the shifted value vanishes: a single
byte holding the value itself (which is below 128). -/
theorem encode_step_small (v : Nat) (h : v / 128 = 0) :
    encode_remaining_length v = [v % 128] := by
  rw [encode_remaining_length, dif_neg (by rw [shiftRight7_eq_div]; omega), and127_eq_mod]

/-- One-step equation of the encoder when the shifted value is positive: the
low 7 bits with the continuation bit (an addition of 128, since the masked
value is below 128), then the encoding of the shifted value. -/
theorem encode_step_big (v : Nat) (h : ¬ v / 128 = 0) :
    encode_remaining_length v = (v % 128 + 128) :: encode_remaining_length (v / 128) := by
  rw [encode_remaining_length, dif_pos (by rw [shiftRight7_eq_div]; omega)]
  rw [shiftRight7_eq_div, and127_eq_mod, or128_eq_add (v % 128) (Nat.mod_lt v (by norm_num))]

/-- Runs of the loop of encode_remaining_length with enough fuel on a
non-negative integer terminate with exactly the bytes of the Nat-level
encoder. -/
theorem encodeRLFuel_ofNat (f : Nat) : ∀ v : Nat, v < f →
    encodeRLFuel f (v : Int) = some (natBytesToInt (encode_remaining_length v)) := by
  induction f with
  | zero => exact fun v hv => absurd hv (Nat.not_lt_zero v)
  | succ f ih =>
    intro v hv
    simp only [encodeRLFuel]
    have hed : ((v : Int)) / 128 = ((v / 128 : Nat) : Int) := (Int.ofNat_ediv v 128).symm
    have hem : ((v : Int)) % 128 = ((v % 128 : Nat) : Int) := (Int.ofNat_emod v 128).symm
    rw [hed, hem]
    by_cases h : v / 128 = 0
    · rw [if_pos (by rw [h]; exact Int.natCast_zero), if_neg (by rw [h]; simp),
        encode_step_small v h]
      simp only [natBytesToInt, List.map_cons, List.map_nil, Int.ofNat_eq_natCast]
    · have hcast : (0 : Int) < ((v / 128 : Nat) : Int) := by
        exact_mod_cast Nat.pos_of_ne_zero h
      rw [if_neg (by exact_mod_cast h), if_pos hcast]
      have hrec : v / 128 < f := by omega
      rw [ih (v / 128) hrec, encode_step_big v h]
      simp only [natBytesToInt, Option.map_some', List.map_cons, Option.some.injEq,
        List.cons.injEq, Int.ofNat_eq_natCast]
      refine ⟨by omega, trivial⟩

/-- Runs of the loop of encode_remaining_length on a negative integer never
terminate: the floor shift keeps the value negative, so the value never
reaches 0 and no fuel suffices. -/
theorem encodeRLFuel_neg : ∀ (f : Nat) (v : Int), v < 0 → encodeRLFuel f v = none := by
  intro f
  induction f with
  | zero => exact fun v _ => rfl
  | succ f ih =>
    intro v hv
    have hsh : v / 128 < 0 := by omega
    simp only [encodeRLFuel]
    rw [if_neg (by omega : ¬ v / 128 = 0), ih (v / 128) hsh]
    rfl

/-- C10: the encoder loop terminates on every non-negative input (with fuel
v + 1 it produces exactly the bytes of the Nat-level encoder), always returns
a non-empty byte sequence, and the non-negativity precondition is necessary:
on any negative input the loop never terminates, since the arithmetic shift
keeps the value negative. -/
theorem encode_remaining_length_terminates :
    (∀ v : Nat, encodeRLFuel (v + 1) (v : Int)
        = some (natBytesToInt (encode_remaining_length v))) ∧
    (∀ v : Nat, encode_remaining_length v ≠ []) ∧
    (∀ v : Int, v < 0 → ∀ fuel : Nat, encodeRLFuel fuel v = none) :=
  ⟨fun v => encodeRLFuel_ofNat (v + 1) v (Nat.lt_succ_self v),
   encode_remaining_length_ne_nil,
   fun v hv fuel => encodeRLFuel_neg fuel v hv⟩

/-- Witness for C10: concrete runs at value 0 (terminates with the byte 0) and
at value -1 (still no result with fuel 5). -/
theorem encode_remaining_length_terminates_witness :
    encodeRLFuel 1 ((0 : Nat) : Int)
        = some (natBytesToInt (encode_remaining_length 0)) ∧
    ((-1 : Int) < 0 ∧ encodeRLFuel 5 (-1) = none) :=
  ⟨encode_remaining_length_terminates.1 0,
   ⟨by decide, encode_remaining_length_terminates.2.2 (-1) (by decide) 5⟩⟩

theorem small_and127 (n : Nat) (h : n < 128) : n &&& 127 = n := by
  rw [and127_eq_mod, Nat.mod_eq_of_lt h]

theorem small_and128 (n : Nat) (h : n < 128) : n &&& 128 = 0 := by
  rw [← small_and127 n h, lastByte_and128]

theorem and255_eq_mod (v : Nat) : v &&& 255 = v % 256 := by
  have h := Nat.and_pow_two_sub_one_eq_mod v 8
  norm_num at h
  exact h

/-- A successful readexactly returns exactly the requested number of bytes:
the prefix of the stream of that length, with the remainder as leftover. -/
theorem readexactly_some (n : Nat) (s l r : List Nat) (h : readexactly n s = some (l, r)) :
    l.length = n ∧ l = s.take n ∧ r = s.drop n ∧ s = l ++ r := by
  unfold readexactly at h
  by_cases hc : n ≤ s.length
  · rw [if_pos hc] at h
    obtain ⟨hl, hr⟩ : s.take n = l ∧ s.drop n = r := by simpa using h
    subst hl
    subst hr
    refine ⟨?_, rfl, rfl, (List.take_append_drop n s).symm⟩
    simp [List.length_take, Nat.min_eq_left hc]
  · rw [if_neg hc] at h
    cases h

theorem decodeRL_single (n : Nat) (h : n < 128) (t : List Nat) :
    decodeRL (n :: t) 1 0 = some (n, t) := by
  rw [decodeRL, if_pos (small_and128 n h), small_and127 n h]
  norm_num

/-- Reading one frame whose remaining length fits in a single varint byte. -/
theorem read_packet_simple (hd n : Nat) (payload rest : List Nat)
    (hn : payload.length = n) (hlen : n < 128) :
    read_packet (hd :: n :: (payload ++ rest)) = some (hd, payload, rest) := by
  have h1 : readexactly 1 (hd :: n :: (payload ++ rest))
      = some ([hd], n :: (payload ++ rest)) := by
    simp [readexactly]
  have h2 := decodeRL_single n hlen (payload ++ rest)
  have h3 : readexactly n (payload ++ rest) = some (payload, rest) := by
    unfold readexactly
    rw [if_pos (by simp [← hn])]
    subst hn
    rw [List.take_left, List.drop_left]
  simp only [read_packet, h1, h2, h3]
  rfl

theorem packetId_hi (b0 b1 : Nat) (h1 : b1 < 256) : ((b0 <<< 8) ||| b1) >>> 8 = b0 := by
  rw [or_shiftRight (b0 <<< 8) b1 8]
  have h28 : (2 : Nat) ^ 8 = 256 := by norm_num
  have e1 : b0 <<< 8 >>> 8 = b0 := by
    rw [Nat.shiftLeft_eq, Nat.shiftRight_eq_div_pow, h28]
    omega
  have e2 : b1 >>> 8 = 0 := by
    rw [Nat.shiftRight_eq_div_pow, h28]
    omega
  rw [e1, e2, Nat.or_zero]

theorem packetId_lo (b0 b1 : Nat) (h1 : b1 < 256) : ((b0 <<< 8) ||| b1) &&& 255 = b1 := by
  rw [Nat.and_distrib_right]
  have h28 : (2 : Nat) ^ 8 = 256 := by norm_num
  have e1 : (b0 <<< 8) &&& 255 = 0 := by
    rw [and255_eq_mod, Nat.shiftLeft_eq, h28]
    omega
  have e2 : b1 &&& 255 = b1 := by
    rw [and255_eq_mod]
    omega
  rw [e1, e2]
  simp

/-- The canned topic encoding: 2-byte big-endian prefix 0x00 0x1A (the topic
has 26 UTF-8 bytes) followed by the topic bytes. -/
theorem encode_string_topic :
    encode_string TEST_TOPIC = some ([0x00, 0x1A] ++ utf8Bytes TEST_TOPIC) := by rfl

/-- Complete trace of the written bytes over a well-formed handshake stream:
CONNACK, SUBACK echoing the two packet id bytes, then the PUBLISH frame. -/
theorem handle_client_handshake (b0 b1 : Nat) (_h0 : b0 < 256) (h1 : b1 < 256)
    (rest : List Nat) :
    (handle_client ([0x10, 0x00, 0x80, 0x02, b0, b1] ++ rest)).written
      = [0x20, 0x02, 0x00, 0x00, 0x90, 0x03, b0, b1, 0x00, 0x30]
        ++ encode_remaining_length 47 ++ ([0x00, 0x1A] ++ utf8Bytes TEST_TOPIC)
        ++ utf8Bytes BROKER_MESSAGE := by
  have hrp1 : read_packet (0x10 :: 0x00 :: (([] : List Nat) ++ (0x80 :: 0x02 :: ([b0, b1] ++ rest))))
      = some (0x10, [], 0x80 :: 0x02 :: ([b0, b1] ++ rest)) :=
    read_packet_simple 0x10 0x00 [] _ rfl (by norm_num)
  have hrp2 : read_packet (0x80 :: 0x02 :: ([b0, b1] ++ rest)) = some (0x80, [b0, b1], rest) :=
    read_packet_simple 0x80 0x02 [b0, b1] rest rfl (by norm_num)
  simp only [List.nil_append, List.cons_append] at hrp1 hrp2 ⊢
  simp only [handle_client, hrp1, hrp2, encode_string_topic, List.getD_cons_zero,
    List.getD_cons_succ]
  rw [if_neg (by decide), if_neg (by decide), if_neg (by simp)]
  have hrem : ([0x00, 0x1A] ++ utf8Bytes TEST_TOPIC).length + (utf8Bytes BROKER_MESSAGE).length
      = 47 := by rfl
  rw [hrem, packetId_hi b0 b1 h1, packetId_lo b0 b1 h1]
  rcases hr : read_packet rest with _ | p <;>
    simp [hr, List.append_assoc]

/-- C2: on a CONNECT frame the broker writes exactly the CONNACK bytes
20 02 00 00, and on the following SUBSCRIBE frame carrying any 16-bit packet
id (bytes b0 b1, for example 00 07) it answers with exactly the SUBACK bytes
90 03 b0 b1 00, echoing the packet id unchanged, before the PUBLISH bytes. -/
theorem handshake_connack_suback (b0 b1 : Nat) (h0 : b0 < 256) (h1 : b1 < 256) :
    (handle_client [0x10, 0x00]).written = [0x20, 0x02, 0x00, 0x00] ∧
    ∀ rest : List Nat, ∃ publishTail : List Nat,
      (handle_client ([0x10, 0x00, 0x80, 0x02, b0, b1] ++ rest)).written
        = [0x20, 0x02, 0x00, 0x00] ++ ([0x90, 0x03, b0, b1, 0x00] ++ publishTail) := by
  constructor
  · rfl
  · intro rest
    refine ⟨0x30 :: (encode_remaining_length 47 ++ ([0x00, 0x1A] ++ utf8Bytes TEST_TOPIC)
      ++ utf8Bytes BROKER_MESSAGE), ?_⟩
    rw [handle_client_handshake b0 b1 h0 h1 rest]
    simp

/-- Witness for C2 at the packet id 0x0007 from the spec scenario. -/
theorem handshake_connack_suback_witness :
    (handle_client [0x10, 0x00]).written = [0x20, 0x02, 0x00, 0x00] ∧
    ∀ rest : List Nat, ∃ publishTail : List Nat,
      (handle_client ([0x10, 0x00, 0x80, 0x02, 0x00, 0x07] ++ rest)).written
        = [0x20, 0x02, 0x00, 0x00] ++ ([0x90, 0x03, 0x00, 0x07, 0x00] ++ publishTail) :=
  handshake_connack_suback 0x00 0x07 (by norm_num) (by norm_num)

/-- Byte value of encode_remaining_length at the canned remaining length 47. -/
theorem encode_47 : encode_remaining_length 47 = [0x2F] := by
  rw [encode_step_small 47 (by norm_num)]

/-- Counterexample to C3 as stated: on the spec handshake the PUBLISH payload
begins with the 2-byte length 00 1A (the topic robotick/integration/topic has
26 UTF-8 bytes, not 27), and the message welcome from broker has 19 UTF-8
bytes, not 20; the byte at offset 12 of the written stream is 0x1A, not the
claimed 0x1B. -/
theorem publish_frame_spec_mismatch :
    (utf8Bytes TEST_TOPIC).length = 26 ∧ (utf8Bytes TEST_TOPIC).length ≠ 27 ∧
    (utf8Bytes BROKER_MESSAGE).length = 19 ∧ (utf8Bytes BROKER_MESSAGE).length ≠ 20 ∧
    (handle_client [0x10, 0x00, 0x80, 0x02, 0x00, 0x07]).written.getD 12 0 = 0x1A ∧
    ¬ ((handle_client [0x10, 0x00, 0x80, 0x02, 0x00, 0x07]).written.getD 12 0 = 0x1B) := by
  have h := handle_client_handshake 0x00 0x07 (by norm_num) (by norm_num) []
  simp only [List.append_nil] at h
  rw [encode_47] at h
  rw [h]
  refine ⟨by decide, by decide, by decide, by decide, by decide, by decide⟩

/-- C3 amended: after the SUBACK the broker writes the PUBLISH frame with
header 0x30, remaining length 47 encoded as the single varint byte 0x2F (the
47 is 2 + 26 + 19: length prefix plus topic bytes plus message bytes), then
the 2-byte big-endian topic length 00 1A (26, the byte length of the topic
robotick/integration/topic), then that topic's UTF-8 bytes, then the 19 UTF-8
bytes of the message welcome from broker. -/
theorem publish_frame_bytes :
    (handle_client [0x10, 0x00, 0x80, 0x02, 0x00, 0x07]).written
      = [0x20, 0x02, 0x00, 0x00, 0x90, 0x03, 0x00, 0x07, 0x00]
        ++ ([0x30, 0x2F, 0x00, 0x1A] ++ utf8Bytes TEST_TOPIC ++ utf8Bytes BROKER_MESSAGE) ∧
    (utf8Bytes TEST_TOPIC).length = 26 ∧
    (utf8Bytes BROKER_MESSAGE).length = 19 ∧
    2 + 26 + 19 = 47 ∧
    encode_remaining_length 47 = [0x2F] := by
  have h := handle_client_handshake 0x00 0x07 (by norm_num) (by norm_num) []
  simp only [List.append_nil] at h
  rw [encode_47] at h
  rw [h]
  refine ⟨by simp, by decide, by decide, by norm_num, encode_47⟩

/-- C5: when the first frame of the stream is not a CONNECT (its control type
nibble differs from 0x1), handle_client terminates with the RuntimeError
absorbed, writes nothing at all (in particular no CONNACK), and the stream is
closed. -/
theorem non_connect_first_frame (input : List Nat) (header : Nat) (payload rest : List Nat)
    (hrp : read_packet input = some (header, payload, rest))
    (hh : header &&& 0xF0 ≠ 0x10) :
    handle_client input = ⟨[], ConnResult.absorbed, true⟩ := by
  simp only [handle_client, hrp]
  rw [if_pos hh]

/-- Witness for C5: a SUBSCRIBE frame arriving first; no CONNACK is written. -/
theorem non_connect_first_frame_witness :
    handle_client [0x80, 0x02, 0x00, 0x07] = ⟨[], ConnResult.absorbed, true⟩ :=
  non_connect_first_frame [0x80, 0x02, 0x00, 0x07] 0x80 [0x00, 0x07] []
    (by rfl) (by decide)

/-- C6: whenever read_packet succeeds, the returned payload has exactly the
length advertised by the decoded remaining-length varint. -/
theorem read_packet_payload_length (s : List Nat) (header : Nat) (payload rest : List Nat)
    (h : read_packet s = some (header, payload, rest)) :
    ∃ advertised tail2, decodeRL (s.drop 1) 1 0 = some (advertised, tail2) ∧
      payload.length = advertised := by
  unfold read_packet at h
  cases h1 : readexactly 1 s with
  | none => rw [h1] at h; simp at h
  | some t1 =>
    obtain ⟨first, s1⟩ := t1
    simp only [h1] at h
    obtain ⟨-, -, hs1, -⟩ := readexactly_some 1 s first s1 h1
    cases h2 : decodeRL s1 1 0 with
    | none => simp only [h2] at h; cases h
    | some t2 =>
      obtain ⟨adv, s2⟩ := t2
      simp only [h2] at h
      cases h3 : readexactly adv s2 with
      | none => simp only [h3] at h; cases h
      | some t3 =>
        obtain ⟨pl, s3⟩ := t3
        simp only [h3] at h
        obtain ⟨hlen, -, -, -⟩ := readexactly_some adv s2 pl s3 h3
        simp only [Option.some.injEq, Prod.mk.injEq] at h
        obtain ⟨-, hp, -⟩ := h
        refine ⟨adv, s2, ?_, ?_⟩
        · rw [← hs1]
          exact h2
        · rw [← hp]
          exact hlen

/-- Witness for C6 at a concrete frame: header 0x30, advertised length 2,
payload of two bytes. -/
theorem read_packet_payload_length_witness :
    ∃ advertised tail2,
      decodeRL (([0x30, 0x02, 0xAB, 0xCD, 0xEE] : List Nat).drop 1) 1 0
        = some (advertised, tail2) ∧
      ([0xAB, 0xCD] : List Nat).length = advertised :=
  read_packet_payload_length [0x30, 0x02, 0xAB, 0xCD, 0xEE] 0x30 [0xAB, 0xCD] [0xEE] (by rfl)

/-- Counterexample to C4 as stated: a SUBSCRIBE frame whose payload is empty
(stream 10 00 80 00) makes the packet id extraction raise IndexError, which is
not in the except tuple, so an exception does propagate out of handle_client. -/
theorem handle_client_uncaught_exception :
    (handle_client [0x10, 0x00, 0x80, 0x00]).result = ConnResult.uncaught := by decide

/-- C4 amended: the stream is closed on every path; an empty or truncated
first read (IncompleteReadError) is absorbed with nothing written; and the
only way an exception escapes handle_client is a CONNECT followed by a
SUBSCRIBE-typed frame whose payload is shorter than the 2 packet id bytes
(the IndexError of payload[0] or payload[1], outside the except tuple). -/
theorem handle_client_error_absorption (input : List Nat) :
    (handle_client input).closed = true ∧
    (read_packet input = none → handle_client input = ⟨[], ConnResult.absorbed, true⟩) ∧
    ((handle_client input).result = ConnResult.uncaught →
      ∃ h p r h2 p2 r2, read_packet input = some (h, p, r) ∧ h &&& 0xF0 = 0x10 ∧
        read_packet r = some (h2, p2, r2) ∧ h2 &&& 0xF0 = 0x80 ∧ p2.length < 2) := by
  cases hrp : read_packet input with
  | none =>
    have hw : handle_client input = ⟨[], ConnResult.absorbed, true⟩ := by
      simp only [handle_client, hrp]
    refine ⟨by rw [hw], fun _ => hw, fun hu => ?_⟩
    rw [hw] at hu
    simp at hu
  | some t =>
    obtain ⟨h, p, r⟩ := t
    by_cases hh : h &&& 0xF0 ≠ 0x10
    · have hw : handle_client input = ⟨[], ConnResult.absorbed, true⟩ := by
        simp only [handle_client, hrp]
        rw [if_pos hh]
      refine ⟨by rw [hw], fun hn => ?_, fun hu => ?_⟩
      · cases hn
      · rw [hw] at hu
        simp at hu
    · cases hrp2 : read_packet r with
      | none =>
        have hw : handle_client input = ⟨[0x20, 0x02, 0x00, 0x00], ConnResult.absorbed, true⟩ := by
          simp only [handle_client, hrp, hrp2]
          rw [if_neg hh]
        refine ⟨by rw [hw], fun hn => ?_, fun hu => ?_⟩
        · cases hn
        · rw [hw] at hu
          simp at hu
      | some t2 =>
        obtain ⟨h2, p2, r2⟩ := t2
        by_cases hh2 : h2 &&& 0xF0 ≠ 0x80
        · have hw : handle_client input
              = ⟨[0x20, 0x02, 0x00, 0x00], ConnResult.absorbed, true⟩ := by
            simp only [handle_client, hrp, hrp2]
            rw [if_neg hh, if_pos hh2]
          refine ⟨by rw [hw], fun hn => ?_, fun hu => ?_⟩
          · cases hn
          · rw [hw] at hu
            simp at hu
        · by_cases hp2 : p2.length < 2
          · have hw : handle_client input
                = ⟨[0x20, 0x02, 0x00, 0x00], ConnResult.uncaught, true⟩ := by
              simp only [handle_client, hrp, hrp2]
              rw [if_neg hh, if_neg hh2, if_pos hp2]
            refine ⟨by rw [hw], fun hn => ?_, fun _ => ?_⟩
            · cases hn
            · exact ⟨h, p, r, h2, p2, r2, rfl, not_not.mp hh, hrp2, not_not.mp hh2, hp2⟩
          · have hres : (handle_client input).closed = true ∧
                (handle_client input).result ≠ ConnResult.uncaught := by
              cases hrp3 : read_packet r2 with
              | none =>
                simp only [handle_client, hrp, hrp2, encode_string_topic, hrp3]
                rw [if_neg hh, if_neg hh2, if_neg hp2]
                exact ⟨rfl, by simp⟩
              | some t3 =>
                simp only [handle_client, hrp, hrp2, encode_string_topic, hrp3]
                rw [if_neg hh, if_neg hh2, if_neg hp2]
                exact ⟨rfl, by simp⟩
            refine ⟨hres.1, fun hn => ?_, fun hu => ?_⟩
            · cases hn
            · exact absurd hu hres.2

/-- Witness for C4 amended at the empty stream: the immediate-disconnect case
is absorbed with nothing written and the stream closed. -/
theorem handle_client_error_absorption_witness :
    handle_client [] = ⟨[], ConnResult.absorbed, true⟩ :=
  (handle_client_error_absorption []).2.1 (by rfl)

/-- Counterexample to C8 as stated: with the non-integer port argument abc the
process does not print the usage message; int() raises an uncaught ValueError
(a traceback on stderr, exit status 1). -/
theorem main_usage_counterexample :
    pythonInt "abc" = none ∧
    MqttBroker.main ["mqtt_broker.py", "abc"] = MainOutcome.exitTraceback ∧
    MqttBroker.main ["mqtt_broker.py", "abc"] ≠ MainOutcome.exitUsage := by
  refine ⟨by decide, by decide, by decide⟩

/-- C8 amended: an argument count other than 2 prints the usage message to
stderr and exits with status 1 without starting the listener; a non-integer
port argument instead raises an uncaught ValueError, whose traceback goes to
stderr and makes the interpreter exit with status 1, likewise without starting
the listener; a parseable port starts the listener. -/
theorem main_argument_handling (argv : List String) :
    (argv.length ≠ 2 → MqttBroker.main argv = MainOutcome.exitUsage ∧
      exitCode (MqttBroker.main argv) = some 1) ∧
    (∀ prog arg, argv = [prog, arg] → pythonInt arg = none →
      MqttBroker.main argv = MainOutcome.exitTraceback ∧
      exitCode (MqttBroker.main argv) = some 1) ∧
    (∀ prog arg p, argv = [prog, arg] → pythonInt arg = some p →
      MqttBroker.main argv = MainOutcome.runServer p) := by
  refine ⟨fun hl => ?_, fun prog arg he hn => ?_, fun prog arg p he hp => ?_⟩
  · have hm : MqttBroker.main argv = MainOutcome.exitUsage := by
      unfold MqttBroker.main
      rw [if_pos hl]
    exact ⟨hm, by rw [hm]; rfl⟩
  · subst he
    have hm : MqttBroker.main [prog, arg] = MainOutcome.exitTraceback := by
      unfold MqttBroker.main
      rw [if_neg (by simp)]
      simp only [List.getD_cons_succ, List.getD_cons_zero, hn]
    exact ⟨hm, by rw [hm]; rfl⟩
  · subst he
    unfold MqttBroker.main
    rw [if_neg (by simp)]
    simp only [List.getD_cons_succ, List.getD_cons_zero, hp]

/-- Witness for C8 amended: one missing argument gives the usage error and
exit status 1; the non-integer argument abc gives the uncaught ValueError. -/
theorem main_argument_handling_witness :
    (MqttBroker.main ["mqtt_broker.py"] = MainOutcome.exitUsage ∧
      exitCode (MqttBroker.main ["mqtt_broker.py"]) = some 1) ∧
    (MqttBroker.main ["mqtt_broker.py", "abc"] = MainOutcome.exitTraceback ∧
      exitCode (MqttBroker.main ["mqtt_broker.py", "abc"]) = some 1) :=
  ⟨(main_argument_handling ["mqtt_broker.py"]).1 (by decide),
   (main_argument_handling ["mqtt_broker.py", "abc"]).2.1 "mqtt_broker.py" "abc" rfl (by decide)⟩

/-- C9: encode_string succeeds exactly on strings whose UTF-8 form fits in
65535 bytes, producing the 2-byte big-endian length prefix (both prefix bytes
below 256, recombining to the length) followed by the UTF-8 bytes; on longer
strings the high prefix byte would exceed 255, the bytes constructor raises
ValueError, and nothing truncated is produced. -/
theorem encode_string_spec (s : String) :
    ((utf8Bytes s).length ≤ 65535 →
      encode_string s = some (((utf8Bytes s).length >>> 8)
        :: ((utf8Bytes s).length &&& 0xFF) :: utf8Bytes s) ∧
      ((utf8Bytes s).length >>> 8) * 256 + ((utf8Bytes s).length &&& 0xFF)
        = (utf8Bytes s).length ∧
      (utf8Bytes s).length >>> 8 < 256 ∧ (utf8Bytes s).length &&& 0xFF < 256) ∧
    (65535 < (utf8Bytes s).length → encode_string s = none) := by
  have h28 : (2 : Nat) ^ 8 = 256 := by norm_num
  have hsh : (utf8Bytes s).length >>> 8 = (utf8Bytes s).length / 256 := by
    rw [Nat.shiftRight_eq_div_pow, h28]
  have hand : (utf8Bytes s).length &&& 0xFF = (utf8Bytes s).length % 256 := and255_eq_mod _
  constructor
  · intro hle
    refine ⟨?_, ?_, ?_, ?_⟩
    · simp only [encode_string]
      rw [if_pos (by rw [hsh]; omega)]
      simp
    · rw [hsh, hand]
      omega
    · rw [hsh]
      omega
    · rw [hand]
      omega
  · intro hgt
    simp only [encode_string]
    rw [if_neg (by rw [hsh]; omega)]

/-- Witness for C9 at the two-character string ab: the UTF-8 length 2 is in
range and the encoding is the prefix 00 02 followed by the bytes of ab. -/
theorem encode_string_spec_witness :
    (utf8Bytes "ab").length ≤ 65535 ∧
    (encode_string "ab" = some (((utf8Bytes "ab").length >>> 8)
        :: ((utf8Bytes "ab").length &&& 0xFF) :: utf8Bytes "ab") ∧
      ((utf8Bytes "ab").length >>> 8) * 256 + ((utf8Bytes "ab").length &&& 0xFF)
        = (utf8Bytes "ab").length ∧
      (utf8Bytes "ab").length >>> 8 < 256 ∧ (utf8Bytes "ab").length &&& 0xFF < 256) :=
  ⟨by decide, (encode_string_spec "ab").1 (by decide)⟩
